import Mathlib

/-!
# krantius/raft: the replicated log and the client hot path

A shallow embedding of `src/log.go`, `src/fsm.go` and the parts of
`src/raft.go` that the properties below speak about.

Modelling conventions

* Go `int` fields are `Int`.  The only arithmetic whose result can leave the
  64-bit range on values that fit in it is `l.CurrentIndex++` in `appendCmd`
  (the field is copied from leader-supplied entries and is not tied to the
  slice length); it is wrapped by `wrapInt`.  In `commit` the guard
  `l.CommitIndex >= index` gives `CommitIndex + 1 <= index`, every visited
  `i` is a valid slice position, and `len(l.logs) - 1` is at least `-1`, so
  those additions are exact.
* A Go slice is a `List`; an index expression `s[i]` that is out of range
  panics, which is the result `none` of the enclosing function.
* `sync.Mutex` and the `logging` calls have no effect on the values computed
  and are left out; every function is modelled as running alone.
-/

set_option linter.unusedVariables false

namespace raft

/-! ## fsm.go -/

/-- Go `type Operation string`. -/
abbrev Operation := String

/-- Go constant `Set Operation = "set"`. -/
def Operation.Set : Operation := "set"

/-- Go constant `Delete Operation = "delete"`. -/
def Operation.Delete : Operation := "delete"

/-- Go `type Command struct { Op Operation; Key string; Val []byte }`. -/
structure Command where
  Op : Operation
  Key : String
  Val : List (Fin 256)
deriving DecidableEq, Repr

/-- One call received by the `Store` interface (`Set(key, val)` or `Delete(key)`). -/
inductive StoreCall where
  | Set (key : String) (val : List (Fin 256))
  | Delete (key : String)
deriving DecidableEq, Repr

/-! ## log.go -/

/-- Go `type LogEntry struct { Term, Index int; Committed bool; Cmd Command }`. -/
structure LogEntry where
  Term : Int
  Index : Int
  Committed : Bool
  Cmd : Command
deriving DecidableEq, Repr

/-- Go `type Log struct`, without the mutex. -/
structure Log where
  CurrentTerm : Int
  CurrentIndex : Int
  CommitIndex : Int
  logs : List LogEntry
deriving DecidableEq, Repr

/-- Two's-complement wrap of a Go `int` (64 bits) result. -/
def wrapInt (x : Int) : Int :=
  (x + 2 ^ 63) % 2 ^ 64 - 2 ^ 63

/-- The slice index expression `s[i]`: `none` is the out-of-range panic. -/
def index (s : List LogEntry) (i : Int) : Option LogEntry :=
  if 0 ≤ i then s[i.toNat]? else none

/-- The private `(l *Log) append(entries)`: extend the slice, then copy the
last stored entry's `Index` and `Term` into the log. -/
def Log.append (l : Log) (entries : List LogEntry) : Option Log :=
  let logs := l.logs ++ entries
  match index logs ((logs.length : Int) - 1) with
  | none => none
  | some last =>
    some { CurrentTerm := last.Term, CurrentIndex := last.Index,
           CommitIndex := l.CommitIndex, logs := logs }

/-- The exported `(l *Log) Append(term, prevIndex, prevTerm, commitIndex, entries)`.
The result is the returned boolean and the log afterwards. -/
def Log.Append (l : Log) (term prevIndex prevTerm commitIndex : Int)
    (entries : List LogEntry) : Option (Bool × Log) :=
  if term < l.CurrentTerm then
    some (false, l)
  else
    let l1 : Log := { l with CurrentTerm := term }
    match index entries 0 with
    | none => none
    | some first =>
      if first.Index = 0 ∧ l1.CurrentIndex = -1 then
        match l1.append entries with
        | none => none
        | some l2 => some (true, l2)
      else if l1.CurrentIndex < prevIndex then
        some (false, l1)
      else
        match index l1.logs prevIndex with
        | none => none
        | some prev =>
          if prev.Term ≠ prevTerm then
            some (false, l1)
          else
            match l1.append entries with
            | none => none
            | some l2 => some (true, l2)

/-- `(l *Log) appendCmd(c)`: the result is the new entry and the log afterwards. -/
def Log.appendCmd (l : Log) (c : Command) : LogEntry × Log :=
  let l1 : Log := { l with CurrentIndex := wrapInt (l.CurrentIndex + 1) }
  let le : LogEntry :=
    { Term := l1.CurrentTerm, Index := l1.CurrentIndex, Committed := false, Cmd := c }
  (le, { l1 with logs := l1.logs ++ [le] })

/-- The body of the `for` loop of `commit`, run `n` times from position `i`:
`l.logs[i].Committed = true; committedLogs = append(committedLogs, l.logs[i])`. -/
def commitLoop : Nat → Int → List LogEntry → List LogEntry →
    Option (List LogEntry × List LogEntry)
  | 0, _, logs, committedLogs => some (logs, committedLogs)
  | n + 1, i, logs, committedLogs =>
    match index logs i with
    | none => none
    | some e =>
      let e1 : LogEntry := { e with Committed := true }
      commitLoop n (i + 1) (logs.set i.toNat e1) (committedLogs ++ [e1])

/-- `(l *Log) commit(index)`.  The loop `for i := l.CommitIndex + 1; i <= index; i++`
runs `index - l.CommitIndex` times when the guard lets it start.  The returned
`nil` of the guard is the empty list. -/
def Log.commit (l : Log) (idx : Int) : Option (List LogEntry × Log) :=
  if l.CommitIndex ≥ idx then
    some ([], l)
  else
    match commitLoop (idx - l.CommitIndex).toNat (l.CommitIndex + 1) l.logs [] with
    | none => none
    | some (logs, committedLogs) =>
      some (committedLogs, { l with logs := logs, CommitIndex := idx })

/-! ## raft.go -/

/-- Modelled from the spec: the type `State` and its constants `Follower`,
`Candidate` and `Leader` are declared outside the listed sources; the spec
names exactly these three roles. -/
inductive State where
  | Follower
  | Candidate
  | Leader
deriving DecidableEq, Repr

/-- Go `type Raft struct`, restricted to the fields that hold data: identity,
port, term, role, peer list, the owned log and the peer tracker (a Go map,
here an association list).  Timers, context, mutex, the RPC server and the
`Store` handle carry no data of the model; the calls made on the `Store` are
recorded in `ApplyResult.calls`. -/
structure Raft where
  id : String
  port : Int
  term : Int
  state : State
  peers : List String
  log : Log
  peerLogs : List (String × LogEntry)
deriving DecidableEq, Repr

/-- What one call of `Apply` does: the returned `error` (`none` is `nil`), the
node afterwards, the replication rounds it started (the arguments of each
`appendAll` call) and the calls its body made on the `Store`, in order. -/
structure ApplyResult where
  err : Option String
  node : Raft
  rounds : List (Int × List LogEntry)
  calls : List StoreCall
deriving DecidableEq, Repr

/-- `(r *Raft) Apply(c)`.  The method `appendAll` is defined outside the listed
sources and is a parameter: given the node, the index and the entries it
answers whether quorum was reached and gives the node afterwards. -/
def Raft.Apply (appendAll : Raft → Int → List LogEntry → Bool × Raft)
    (r : Raft) (c : Command) : ApplyResult :=
  if r.state ≠ State.Leader then
    { err := some "not leader", node := r, rounds := [], calls := [] }
  else
    let log := (r.log.appendCmd c).1
    let r1 : Raft := { r with log := (r.log.appendCmd c).2 }
    let committed := (appendAll r1 log.Index [log]).1
    let r2 := (appendAll r1 log.Index [log]).2
    if !committed then
      { err := none, node := r2, rounds := [(log.Index, [log])], calls := [] }
    else if c.Op = Operation.Set then
      { err := none, node := r2, rounds := [(log.Index, [log])],
        calls := [StoreCall.Set c.Key c.Val] }
    else if c.Op = Operation.Delete then
      { err := none, node := r2, rounds := [(log.Index, [log])],
        calls := [StoreCall.Delete c.Key] }
    else
      { err := none, node := r2, rounds := [(log.Index, [log])], calls := [] }

/-! ## Sequences of accepted `Append` calls -/

/-- The arguments of one `Append` call. -/
structure AppendArgs where
  term : Int
  prevIndex : Int
  prevTerm : Int
  commitIndex : Int
  entries : List LogEntry
deriving DecidableEq, Repr

/-- Run the calls in order; the result is the final log when every call
returned `true`, and `none` as soon as one call panics or returns `false`. -/
def acceptAll : Log → List AppendArgs → Option Log
  | l, [] => some l
  | l, a :: rest =>
    match l.Append a.term a.prevIndex a.prevTerm a.commitIndex a.entries with
    | some (true, l2) => acceptAll l2 rest
    | _ => none

/-- The `Index` fields of the entries are `start`, `start + 1`, ... in order. -/
def numberedFrom : Int → List LogEntry → Bool
  | _, [] => true
  | start, e :: es => decide (e.Index = start) && numberedFrom (start + 1) es

/-- Every call of the run carries entries numbered from the `CurrentIndex + 1`
of the log it is applied to. -/
def wellNumbered : Log → List AppendArgs → Bool
  | _, [] => true
  | l, a :: rest =>
    numberedFrom (l.CurrentIndex + 1) a.entries &&
      match l.Append a.term a.prevIndex a.prevTerm a.commitIndex a.entries with
      | some (_, l2) => wellNumbered l2 rest
      | none => true

/-- The stored entry at position `p` has `Index` `p`, and `CurrentIndex` is the
number of stored entries minus one. -/
def Log.Indexed (l : Log) : Prop :=
  (∀ (p : Nat) (e : LogEntry), l.logs[p]? = some e → e.Index = p) ∧
    l.CurrentIndex = (l.logs.length : Int) - 1

/-! ## Sequences of completed calls on a log -/

/-- One call on a log: `Append`, `appendCmd` or `commit`, with its arguments. -/
inductive Call where
  | Append (a : AppendArgs)
  | appendCmd (c : Command)
  | commit (idx : Int)
deriving DecidableEq, Repr

/-- The log after one call; `none` when the call panics. -/
def Log.call (l : Log) : Call → Option Log
  | Call.Append a =>
    match l.Append a.term a.prevIndex a.prevTerm a.commitIndex a.entries with
    | none => none
    | some (_, l2) => some l2
  | Call.appendCmd c => some (l.appendCmd c).2
  | Call.commit idx =>
    match l.commit idx with
    | none => none
    | some (_, l2) => some l2

/-- The log after the calls, run in order; `none` as soon as one panics. -/
def Log.calls : Log → List Call → Option Log
  | l, [] => some l
  | l, c :: rest =>
    match l.call c with
    | none => none
    | some l2 => l2.calls rest

/-- Every `Append` of the run that returns true carries entries numbered from
the `CurrentIndex + 1` of the log it is applied to. -/
def numberedCalls : Log → List Call → Bool
  | _, [] => true
  | l, c :: rest =>
    (match c with
      | Call.Append a =>
        (match l.Append a.term a.prevIndex a.prevTerm a.commitIndex a.entries with
          | some (true, _) => numberedFrom (l.CurrentIndex + 1) a.entries
          | _ => true)
      | _ => true) &&
    (match l.call c with
      | some l2 => numberedCalls l2 rest
      | none => true)

/-- No entry handed to an `Append` of the run is flagged `Committed`. -/
def unflaggedCalls : List Call → Bool
  | [] => true
  | Call.Append a :: rest => a.entries.all (fun e => !e.Committed) && unflaggedCalls rest
  | _ :: rest => unflaggedCalls rest

/-- Consecutive `appendCmd` calls, one per command, in order. -/
def appendCmds (l : Log) (cmds : List Command) : Log :=
  cmds.foldl (fun m c => (m.appendCmd c).2) l

/-! ## New -/

/-- Modelled from the spec: the type `Config` is declared outside the listed
sources; the spec lists a node identity string, a listen port and an ordered
list of peer addresses, read by `New` as `cfg.ID`, `cfg.Port`, `cfg.Peers`. -/
structure Config where
  ID : String
  Port : Int
  Peers : List String
deriving DecidableEq, Repr

/-- The Go map read `m[key]` on the peer tracker (`none`: no such key). -/
def mapGet : List (String × LogEntry) → String → Option LogEntry
  | [], _ => none
  | (k, v) :: m, key => if key = k then some v else mapGet m key

/-- The Go map write `m[key] = val`: replace the value of an existing key, add
the pair otherwise. -/
def mapSet : List (String × LogEntry) → String → LogEntry → List (String × LogEntry)
  | [], key, val => [(key, val)]
  | (k, v) :: m, key, val =>
    if key = k then (k, val) :: m else (k, v) :: mapSet m key val

/-- The composite literal `LogEntry{Index: -1, Term: 0}`; the fields left out
have their zero values. -/
def initialPeerEntry : LogEntry :=
  { Term := 0, Index := -1, Committed := false, Cmd := { Op := "", Key := "", Val := [] } }

/-- `New(ctx, cfg, fsm)`.  The context, the store handle, the RPC callbacks and
the timers (the only users of the random timeout) are outside the data of
`Raft`; `term` is not set by the literal and has its zero value. -/
def New (cfg : Config) : Raft :=
  { id := cfg.ID
    port := cfg.Port
    term := 0
    state := State.Follower
    peers := cfg.Peers
    log := { CurrentTerm := 0, CurrentIndex := -1, CommitIndex := -1, logs := [] }
    peerLogs := cfg.Peers.foldl (fun m val => mapSet m val initialPeerEntry) [] }

/-! ## Sample data used by the instances below -/

/-- A sample command. -/
def sampleCmd : Command := { Op := "set", Key := "k", Val := [] }

/-- A sample uncommitted entry with the given term and index. -/
def entry (term idx : Int) : LogEntry :=
  { Term := term, Index := idx, Committed := false, Cmd := sampleCmd }

/-- The log of a freshly built node with the given term. -/
def emptyLog (term : Int) : Log :=
  { CurrentTerm := term, CurrentIndex := -1, CommitIndex := -1, logs := [] }

/-! ## Basic facts about slices -/

theorem index_of_nonneg (s : List LogEntry) (i : Int) (h : 0 ≤ i) :
    index s i = s[i.toNat]? := by
  simp [index, h]

theorem index_zero_cons (e : LogEntry) (es : List LogEntry) :
    index (e :: es) 0 = some e := by
  simp [index]

theorem index_last_append (s : List LogEntry) (es : List LogEntry) (e : LogEntry) :
    index (s ++ (es ++ [e])) (((s ++ (es ++ [e])).length : Int) - 1) = some e := by
  have h : (((s ++ (es ++ [e])).length : Int) - 1) = ((s.length + es.length : Nat) : Int) := by
    simp [List.length_append]
    omega
  have hlen : s.length + es.length = (s ++ es).length := by simp
  rw [h, index_of_nonneg _ _ (Int.ofNat_nonneg _), Int.toNat_ofNat, ← List.append_assoc, hlen]
  exact List.getElem?_concat_length _ _

/-- On a non-empty batch `append` cannot panic: it stores the batch after the
old entries and copies the last given entry's index and term. -/
theorem append_concat (l : Log) (es : List LogEntry) (e : LogEntry) :
    l.append (es ++ [e]) =
      some { CurrentTerm := e.Term, CurrentIndex := e.Index,
             CommitIndex := l.CommitIndex, logs := l.logs ++ (es ++ [e]) } := by
  simp only [Log.append, index_last_append]

/-- On a non-empty batch `append` succeeds with the batch stored after the old
entries and the last given entry's term and index copied into the log. -/
theorem append_nonempty (l : Log) (entries : List LogEntry) (h : entries ≠ []) :
    l.append entries =
      some { CurrentTerm := (entries.getLast h).Term,
             CurrentIndex := (entries.getLast h).Index,
             CommitIndex := l.CommitIndex, logs := l.logs ++ entries } := by
  obtain ⟨es, e, rfl⟩ : ∃ es e, entries = es ++ [e] := by
    rcases List.eq_nil_or_concat entries with h0 | h0
    · exact absurd h0 h
    · obtain ⟨L, b, hb⟩ := h0
      exact ⟨L, b, by rw [hb, List.concat_eq_append]⟩
  rw [append_concat]
  simp

/-! ## Append -/

/-- C1: a call of `Append` whose term is below the log's `CurrentTerm` returns
false and leaves the whole log (term, index, commit index, stored entries) as
it was, whatever the other arguments are. -/
theorem Append_stale_term (l : Log) (term prevIndex prevTerm commitIndex : Int)
    (entries : List LogEntry) (h : term < l.CurrentTerm) :
    l.Append term prevIndex prevTerm commitIndex entries = some (false, l) := by
  simp [Log.Append, h]

/-- Instance of C1: scenario C, a leader of term 1 calling a follower at term 2,
with no entries at all. -/
theorem Append_stale_term_witness :
    (Log.mk 2 0 (-1) [entry 2 0]).Append 1 0 2 0 [] =
      some (false, Log.mk 2 0 (-1) [entry 2 0]) :=
  Append_stale_term (Log.mk 2 0 (-1) [entry 2 0]) 1 0 2 0 [] (by decide)

/-- C2 as stated fails: on an empty log a batch starting at index 0 is accepted
although `prevIndex = 5` is beyond `CurrentIndex = -1`. -/
theorem Append_prevIndex_beyond_accepted :
    (emptyLog 0).CurrentTerm ≤ 1 ∧ (emptyLog 0).CurrentIndex < 5 ∧
      (emptyLog 0).Append 1 5 0 0 [entry 1 0] =
        some (true, Log.mk 1 0 (-1) [entry 1 0]) := by
  decide

/-- C2, amended: for a call with a non-empty batch and a term that is not
stale.  Outside the bootstrap case (first entry with index 0 on a log whose
`CurrentIndex` is -1) the call returns false when `prevIndex` is beyond
`CurrentIndex`, or when an entry is stored at `prevIndex` and its term differs
from `prevTerm`; only `CurrentTerm` changes, to the presented term.  In the
bootstrap case the call returns true whatever `prevIndex`, `prevTerm` and the
stored entries are, and the batch is stored after them. -/
theorem Append_rejects_mismatch (l : Log) (term prevIndex prevTerm commitIndex : Int)
    (first : LogEntry) (rest : List LogEntry)
    (hterm : l.CurrentTerm ≤ term) :
    (¬ (first.Index = 0 ∧ l.CurrentIndex = -1) →
      (l.CurrentIndex < prevIndex ∨
        ∃ prev, index l.logs prevIndex = some prev ∧ prev.Term ≠ prevTerm) →
      l.Append term prevIndex prevTerm commitIndex (first :: rest) =
        some (false, { l with CurrentTerm := term })) ∧
    ((first.Index = 0 ∧ l.CurrentIndex = -1) →
      l.Append term prevIndex prevTerm commitIndex (first :: rest) =
        some (true,
          { CurrentTerm := ((first :: rest).getLast (List.cons_ne_nil first rest)).Term,
            CurrentIndex := ((first :: rest).getLast (List.cons_ne_nil first rest)).Index,
            CommitIndex := l.CommitIndex,
            logs := l.logs ++ first :: rest })) := by
  have hnot : ¬ term < l.CurrentTerm := not_lt.mpr hterm
  constructor
  · intro hboot hbad
    by_cases hlt : l.CurrentIndex < prevIndex
    · simp [Log.Append, hnot, index_zero_cons, hboot, hlt]
    · rcases hbad with hb | ⟨prev, hprev, hne⟩
      · exact absurd hb hlt
      · simp [Log.Append, hnot, index_zero_cons, hboot, hlt, hprev, hne]
  · intro hboot
    simp only [Log.Append, hnot, if_false, index_zero_cons, hboot.1, hboot.2, and_self,
      if_true]
    rw [append_nonempty _ _ (List.cons_ne_nil first rest)]

/-- Instance of C2 amended.  A rejection: the stored entry at `prevIndex = 0`
has term 0, the leader presents `prevTerm = 1`.  A bootstrap acceptance on a
log that holds two entries and has `CurrentIndex = -1` (the state left by a
bootstrap batch with indices 0 and -1), with `prevIndex = 5` beyond it. -/
theorem Append_rejects_mismatch_witness :
    (Log.mk 0 0 (-1) [entry 0 0]).Append 1 0 1 0 [entry 1 1] =
        some (false, Log.mk 1 0 (-1) [entry 0 0]) ∧
      (Log.mk 1 (-1) (-1) [entry 1 0, entry 1 (-1)]).Append 1 5 0 0 [entry 1 0] =
        some (true, Log.mk 1 0 (-1) [entry 1 0, entry 1 (-1), entry 1 0]) :=
  ⟨(Append_rejects_mismatch (Log.mk 0 0 (-1) [entry 0 0]) 1 0 1 0 (entry 1 1) []
      (by decide)).1 (by decide) (Or.inr ⟨entry 0 0, by decide, by decide⟩),
   (Append_rejects_mismatch (Log.mk 1 (-1) (-1) [entry 1 0, entry 1 (-1)]) 1 5 0 0
      (entry 1 0) [] (by decide)).2 (by decide)⟩

/-- C4: on an empty log (`CurrentIndex = -1`, nothing stored) a call whose term
is not stale and whose batch starts with an entry of index 0 returns true for
every `prevIndex` and `prevTerm`; afterwards the stored entries are exactly the
batch, and term and index are those of its last entry. -/
theorem Append_bootstrap (l : Log) (term prevIndex prevTerm commitIndex : Int)
    (first : LogEntry) (rest : List LogEntry)
    (hidx : l.CurrentIndex = -1) (hlogs : l.logs = [])
    (hterm : l.CurrentTerm ≤ term) (hfirst : first.Index = 0) :
    l.Append term prevIndex prevTerm commitIndex (first :: rest) =
      some (true,
        { CurrentTerm := ((first :: rest).getLast (List.cons_ne_nil first rest)).Term,
          CurrentIndex := ((first :: rest).getLast (List.cons_ne_nil first rest)).Index,
          CommitIndex := l.CommitIndex,
          logs := first :: rest }) := by
  have hnot : ¬ term < l.CurrentTerm := not_lt.mpr hterm
  simp only [Log.Append, hnot, if_false, index_zero_cons, hfirst, hidx, and_self, if_true]
  rw [append_nonempty _ _ (List.cons_ne_nil first rest)]
  simp [hlogs]

/-- Instance of C4: a two-entry batch, with `prevIndex` and `prevTerm` that
match nothing. -/
theorem Append_bootstrap_witness :
    (emptyLog 0).Append 3 (-7) 9 4 [entry 1 0, entry 3 1] =
      some (true, Log.mk 3 1 (-1) [entry 1 0, entry 3 1]) :=
  Append_bootstrap (emptyLog 0) 3 (-7) 9 4 (entry 1 0) [entry 3 1]
    rfl rfl (by decide) rfl


theorem commitLoop_spec (n : Nat) : ∀ (a : Nat) (logs acc : List LogEntry),
    a + n ≤ logs.length →
    ∃ logs2, commitLoop n (a : Int) logs acc =
        some (logs2, acc ++ ((logs.drop a).take n).map
          (fun e => { e with Committed := true })) ∧
      logs2.length = logs.length ∧
      ∀ p : Nat, logs2[p]? = (logs[p]?).map
        (fun e => if a ≤ p ∧ p < a + n then { e with Committed := true } else e) := by
  induction n with
  | zero =>
    intro a logs acc _
    refine ⟨logs, by simp [commitLoop], rfl, ?_⟩
    intro p
    have : ¬ (a ≤ p ∧ p < a) := by omega
    cases logs[p]? <;> simp [this]
  | succ n ih =>
    intro a logs acc h
    have ha : a < logs.length := by omega
    have hidx : index logs (a : Int) = some logs[a] := by
      rw [index_of_nonneg _ _ (Int.ofNat_nonneg _), Int.toNat_ofNat]
      exact List.getElem?_eq_getElem ha
    obtain ⟨logs2, hrun, hlen, hget⟩ :=
      ih (a + 1) (logs.set a { logs[a] with Committed := true })
        (acc ++ [{ logs[a] with Committed := true }]) (by simp; omega)
    refine ⟨logs2, ?_, by simpa using hlen, ?_⟩
    · simp only [commitLoop, hidx, Int.toNat_ofNat]
      have hcast : ((a : Int) + 1) = ((a + 1 : Nat) : Int) := by simp
      rw [hcast, hrun]
      have hdrop : List.drop a logs = logs[a] :: List.drop (a + 1) logs :=
        (List.drop_eq_getElem_cons ha)
      rw [hdrop, List.drop_set_of_lt _ _ (Nat.lt_succ_self a)]
      simp only [List.take_succ_cons, List.map_cons, List.append_assoc, List.singleton_append]
    · intro p
      rw [hget p, List.getElem?_set]
      by_cases hp : a = p
      · subst hp
        simp [ha]
      · have h1 : (a + 1 ≤ p ∧ p < a + 1 + n) ↔ (a ≤ p ∧ p < a + (n + 1)) := by omega
        simp only [hp, if_false]
        cases logs[p]? with
        | none => rfl
        | some e => simp only [Option.map, h1]

/-! ## commit -/

/-- C5: for `-1 ≤ CommitIndex < idx < number of stored entries`, `commit idx`
completes; the new log differs from the old one only in `CommitIndex`, which
is `idx`, and in the `Committed` flag, set on exactly the positions
`CommitIndex + 1 .. idx`; the returned list is the entries of those positions
in ascending order, each with `Committed = true`. -/
theorem commit_marks_range (l : Log) (idx : Int)
    (hc : -1 ≤ l.CommitIndex) (hlo : l.CommitIndex < idx)
    (hhi : idx < (l.logs.length : Int)) :
    ∃ ret l2, l.commit idx = some (ret, l2) ∧
      l2.CurrentTerm = l.CurrentTerm ∧ l2.CurrentIndex = l.CurrentIndex ∧
      l2.CommitIndex = idx ∧ l2.logs.length = l.logs.length ∧
      (∀ p : Nat, l2.logs[p]? = (l.logs[p]?).map
        (fun e => if l.CommitIndex < (p : Int) ∧ (p : Int) ≤ idx
          then { e with Committed := true } else e)) ∧
      ret = ((l.logs.drop (l.CommitIndex + 1).toNat).take (idx - l.CommitIndex).toNat).map
        (fun e => { e with Committed := true }) ∧
      ret = (l2.logs.drop (l.CommitIndex + 1).toNat).take (idx - l.CommitIndex).toNat ∧
      ret.length = (idx - l.CommitIndex).toNat := by
  obtain ⟨a, ha⟩ : ∃ a : Nat, l.CommitIndex + 1 = (a : Int) :=
    ⟨(l.CommitIndex + 1).toNat, by omega⟩
  obtain ⟨n, hn⟩ : ∃ n : Nat, idx - l.CommitIndex = (n : Int) :=
    ⟨(idx - l.CommitIndex).toNat, by omega⟩
  have hbound : a + n ≤ l.logs.length := by omega
  obtain ⟨logs2, hrun, hlen, hget⟩ := commitLoop_spec n a l.logs [] hbound
  have hguard : ¬ l.CommitIndex ≥ idx := by omega
  have hpoint : ∀ p : Nat, logs2[p]? = (l.logs[p]?).map
      (fun e => if l.CommitIndex < (p : Int) ∧ (p : Int) ≤ idx
        then { e with Committed := true } else e) := by
    intro p
    rw [hget p]
    have hiff : (a ≤ p ∧ p < a + n) ↔ (l.CommitIndex < (p : Int) ∧ (p : Int) ≤ idx) := by
      omega
    cases l.logs[p]? with
    | none => rfl
    | some e => simp only [Option.map, hiff]
  rw [List.nil_append] at hrun
  refine ⟨((l.logs.drop a).take n).map (fun e => { e with Committed := true }),
    { l with logs := logs2, CommitIndex := idx },
    by simp only [Log.commit, hguard, if_false, ha, hn, Int.toNat_ofNat, hrun],
    rfl, rfl, rfl, hlen, hpoint, ?_, ?_, ?_⟩
  · simp [ha, hn]
  · simp only [ha, hn, Int.toNat_ofNat]
    apply List.ext_getElem?
    intro k
    simp only [List.getElem?_map, List.getElem?_take, List.getElem?_drop]
    by_cases hk : k < n
    · have hiff : l.CommitIndex < ((a + k : Nat) : Int) ∧ ((a + k : Nat) : Int) ≤ idx := by
        omega
      simp only [hk, if_true, hpoint (a + k)]
      cases l.logs[a + k]? with
      | none => rfl
      | some e => simp only [Option.map, hiff, and_self, if_true]
    · simp [hk]
  · simp [ha, hn]
    omega

/-- Instance of C5: three stored entries, the first already committed,
`commit 2` marks positions 1 and 2. -/
theorem commit_marks_range_witness :
    ∃ ret l2, (Log.mk 0 2 0 [entry 0 0, entry 0 1, entry 0 2]).commit 2 = some (ret, l2) ∧
      l2.CurrentTerm = 0 ∧ l2.CurrentIndex = 2 ∧ l2.CommitIndex = 2 ∧
      l2.logs.length = 3 ∧
      (∀ p : Nat, l2.logs[p]? = ([entry 0 0, entry 0 1, entry 0 2][p]?).map
        (fun e => if (0 : Int) < (p : Int) ∧ (p : Int) ≤ 2
          then { e with Committed := true } else e)) ∧
      ret = (([entry 0 0, entry 0 1, entry 0 2].drop ((0 : Int) + 1).toNat).take
        ((2 : Int) - 0).toNat).map (fun e => { e with Committed := true }) ∧
      ret = (l2.logs.drop ((0 : Int) + 1).toNat).take ((2 : Int) - 0).toNat ∧
      ret.length = ((2 : Int) - 0).toNat :=
  commit_marks_range (Log.mk 0 2 0 [entry 0 0, entry 0 1, entry 0 2]) 2
    (by decide) (by decide) (by decide)

/-- C6: `commit idx` with `idx ≤ CommitIndex` returns no entries and leaves the
log as it was; and right after a completed `commit idx` a second `commit idx`
returns no entries and leaves the log as the first call left it. -/
theorem commit_idempotent (l : Log) (idx : Int) :
    (idx ≤ l.CommitIndex → l.commit idx = some ([], l)) ∧
      (∀ ret l2, l.commit idx = some (ret, l2) → l2.commit idx = some ([], l2)) := by
  have hfirst : ∀ m : Log, idx ≤ m.CommitIndex → m.commit idx = some ([], m) := by
    intro m hm
    simp [Log.commit, hm]
  refine ⟨hfirst l, ?_⟩
  intro ret l2 h
  apply hfirst
  unfold Log.commit at h
  split at h
  · rename_i hge
    simp only [Option.some.injEq, Prod.mk.injEq] at h
    rw [← h.2]
    exact hge
  · split at h
    · exact absurd h (by simp)
    · simp only [Option.some.injEq, Prod.mk.injEq] at h
      rw [← h.2]

/-- Instance of C6: a commit below the commit index, and a commit repeated. -/
theorem commit_idempotent_witness :
    (Log.mk 0 1 1 [entry 0 0, entry 0 1]).commit 0 =
        some ([], Log.mk 0 1 1 [entry 0 0, entry 0 1]) ∧
      (Log.mk 0 1 1 [LogEntry.mk 0 0 true sampleCmd, LogEntry.mk 0 1 true sampleCmd]).commit 1 =
        some ([], Log.mk 0 1 1 [LogEntry.mk 0 0 true sampleCmd, LogEntry.mk 0 1 true sampleCmd]) :=
  ⟨(commit_idempotent (Log.mk 0 1 1 [entry 0 0, entry 0 1]) 0).1 (by decide),
   (commit_idempotent (Log.mk 0 1 (-1) [entry 0 0, entry 0 1]) 1).2
     [LogEntry.mk 0 0 true sampleCmd, LogEntry.mk 0 1 true sampleCmd]
     (Log.mk 0 1 1 [LogEntry.mk 0 0 true sampleCmd, LogEntry.mk 0 1 true sampleCmd])
     (by decide)⟩

/-! ## Accepted calls append the batch -/

/-- A call of `Append` that returns true was given a non-empty batch, and the
log afterwards holds the old entries followed by the batch, with term and
index copied from the last given entry and the commit index untouched. -/
theorem Append_true_result (l : Log) (term prevIndex prevTerm commitIndex : Int)
    (entries : List LogEntry) (l2 : Log)
    (h : l.Append term prevIndex prevTerm commitIndex entries = some (true, l2)) :
    ∃ hne : entries ≠ [],
      l2 = { CurrentTerm := (entries.getLast hne).Term,
             CurrentIndex := (entries.getLast hne).Index,
             CommitIndex := l.CommitIndex, logs := l.logs ++ entries } := by
  cases entries with
  | nil =>
    unfold Log.Append at h
    split at h
    · simp at h
    · simp [index] at h
  | cons first rest =>
    refine ⟨List.cons_ne_nil first rest, ?_⟩
    have happ := append_nonempty { l with CurrentTerm := term } (first :: rest)
      (List.cons_ne_nil first rest)
    unfold Log.Append at h
    simp only [index_zero_cons, happ] at h
    split at h
    · simp at h
    · split at h
      · simp only [Option.some.injEq, Prod.mk.injEq, true_and] at h
        exact h.symm
      · split at h
        · simp at h
        · split at h
          · simp at h
          · split at h
            · simp at h
            · simp only [Option.some.injEq, Prod.mk.injEq, true_and] at h
              exact h.symm

/-- A call of `Append` that returns false leaves the log as it was, except
that `CurrentTerm` may have been replaced by the presented term, which is then
not below the old one. -/
theorem Append_false_result (l : Log) (term prevIndex prevTerm commitIndex : Int)
    (entries : List LogEntry) (l2 : Log)
    (h : l.Append term prevIndex prevTerm commitIndex entries = some (false, l2)) :
    l2 = l ∨ (l.CurrentTerm ≤ term ∧ l2 = { l with CurrentTerm := term }) := by
  unfold Log.Append at h
  split at h
  · simp only [Option.some.injEq, Prod.mk.injEq, true_and] at h
    exact Or.inl h.symm
  · rename_i hnot
    right
    refine ⟨not_lt.mp hnot, ?_⟩
    split at h
    · simp at h
    · dsimp only at h
      split at h
      · split at h <;> simp at h
      · split at h
        · simp only [Option.some.injEq, Prod.mk.injEq, true_and] at h
          exact h.symm
        · split at h
          · simp at h
          · split at h
            · simp only [Option.some.injEq, Prod.mk.injEq, true_and] at h
              exact h.symm
            · split at h <;> simp at h

/-! ## Index numbering along accepted calls -/

theorem numberedFrom_getElem (es : List LogEntry) : ∀ (start : Int),
    numberedFrom start es = true →
    ∀ (k : Nat) (e : LogEntry), es[k]? = some e → e.Index = start + k := by
  induction es with
  | nil => intro start _ k e h; simp at h
  | cons x xs ih =>
    intro start hnum k e h
    simp only [numberedFrom, Bool.and_eq_true, decide_eq_true_eq] at hnum
    cases k with
    | zero =>
      simp only [List.getElem?_cons_zero, Option.some.injEq] at h
      subst h
      simp [hnum.1]
    | succ k =>
      simp only [List.getElem?_cons_succ] at h
      have := ih (start + 1) hnum.2 k e h
      rw [this]
      push_cast
      ring

/-- One accepted call whose batch is numbered from `CurrentIndex + 1` keeps the
stored entries numbered by position. -/
theorem Indexed_Append_step (l : Log) (term prevIndex prevTerm commitIndex : Int)
    (entries : List LogEntry) (l2 : Log) (hI : l.Indexed)
    (hnum : numberedFrom (l.CurrentIndex + 1) entries = true)
    (h : l.Append term prevIndex prevTerm commitIndex entries = some (true, l2)) :
    l2.Indexed := by
  obtain ⟨hne, rfl⟩ := Append_true_result l term prevIndex prevTerm commitIndex entries l2 h
  obtain ⟨hpos, hcur⟩ := hI
  have hnth := numberedFrom_getElem entries (l.CurrentIndex + 1) hnum
  have hlenpos : 0 < entries.length := List.length_pos.mpr hne
  constructor
  · intro p e hp
    simp only at hp
    by_cases hlt : p < l.logs.length
    · rw [List.getElem?_append_left hlt] at hp
      exact hpos p e hp
    · rw [List.getElem?_append_right (not_lt.mp hlt)] at hp
      rw [hnth _ e hp, hcur]
      have : l.logs.length ≤ p := not_lt.mp hlt
      omega
  · simp only [List.length_append]
    have hlast : entries[entries.length - 1]? = some (entries.getLast hne) := by
      rw [List.getLast_eq_getElem, List.getElem?_eq_getElem]
    rw [hnth _ _ hlast, hcur]
    push_cast
    omega

theorem Indexed_acceptAll (calls : List AppendArgs) : ∀ (l l2 : Log),
    l.Indexed → wellNumbered l calls = true → acceptAll l calls = some l2 →
    l2.Indexed := by
  induction calls with
  | nil =>
    intro l l2 hI _ hrun
    simp only [acceptAll, Option.some.injEq] at hrun
    exact hrun ▸ hI
  | cons a rest ih =>
    intro l l2 hI hnum hrun
    simp only [wellNumbered, Bool.and_eq_true] at hnum
    simp only [acceptAll] at hrun
    split at hrun
    · rename_i l1 hstep
      rw [hstep] at hnum
      exact ih l1 l2 (Indexed_Append_step l _ _ _ _ _ l1 hI hnum.1 hstep) hnum.2 hrun
    · simp at hrun

/-- C3 as stated fails: on an empty log one accepted call carrying entries
with indices 0 and 7 leaves an entry with index 7 at position 1 and
`CurrentIndex = 7` with two entries stored. -/
theorem accepted_run_not_indexed :
    acceptAll (emptyLog 0) [AppendArgs.mk 1 0 0 0 [entry 1 0, entry 1 7]] =
        some (Log.mk 1 7 (-1) [entry 1 0, entry 1 7]) ∧
      ¬ (Log.mk 1 7 (-1) [entry 1 0, entry 1 7]).Indexed := by
  refine ⟨by decide, ?_⟩
  intro h
  have h1 := h.1 1 (entry 1 7) rfl
  revert h1
  decide

/-- C3, amended: started on an empty log, a sequence of `Append` calls that
each return true and each carry entries numbered consecutively from the
`CurrentIndex + 1` of the log they are applied to leaves the stored entry at
position `i` with index `i`, and `CurrentIndex` equal to the number of stored
entries minus one. -/
theorem accepted_numbered_run_indexed (l : Log) (calls : List AppendArgs) (l2 : Log)
    (hidx : l.CurrentIndex = -1) (hcommit : l.CommitIndex = -1) (hlogs : l.logs = [])
    (hnum : wellNumbered l calls = true) (hrun : acceptAll l calls = some l2) :
    l2.Indexed := by
  have hI : l.Indexed := by
    constructor
    · intro p e hp
      simp [hlogs] at hp
    · simp [hlogs, hidx]
  exact Indexed_acceptAll calls l l2 hI hnum hrun

/-- Instance of C3 amended: a bootstrap batch of two entries followed by a
one-entry batch. -/
theorem accepted_numbered_run_indexed_witness :
    (Log.mk 1 2 (-1) [entry 1 0, entry 1 1, entry 1 2]).Indexed :=
  accepted_numbered_run_indexed (emptyLog 0)
    [AppendArgs.mk 1 0 0 0 [entry 1 0, entry 1 1], AppendArgs.mk 1 1 1 0 [entry 1 2]]
    (Log.mk 1 2 (-1) [entry 1 0, entry 1 1, entry 1 2])
    rfl rfl rfl (by decide) (by decide)

/-! ## Apply -/

/-- C7: on a node that is not the leader, `Apply` returns the error
"not leader", leaves the node and its log as they were, starts no replication
round and calls neither `Set` nor `Delete` on the store. -/
theorem Apply_not_leader (appendAll : Raft → Int → List LogEntry → Bool × Raft)
    (r : Raft) (c : Command) (h : r.state ≠ State.Leader) :
    r.Apply appendAll c =
      { err := some "not leader", node := r, rounds := [], calls := [] } := by
  simp [Raft.Apply, h]

/-- Instance of C7: a follower, with a replication round that would report
quorum if it were started. -/
theorem Apply_not_leader_witness :
    (Raft.mk "n1" 8000 1 State.Follower ["n2", "n3"] (emptyLog 1) []).Apply
        (fun r _ _ => (true, r)) sampleCmd =
      { err := some "not leader",
        node := Raft.mk "n1" 8000 1 State.Follower ["n2", "n3"] (emptyLog 1) [],
        rounds := [], calls := [] } :=
  Apply_not_leader (fun r _ _ => (true, r))
    (Raft.mk "n1" 8000 1 State.Follower ["n2", "n3"] (emptyLog 1) []) sampleCmd
    (by decide)

/-- C8: on a leader, when the replication round started for the new entry
reports quorum, `Apply` returns no error and its body makes exactly one store
call: `Set(Key, Val)` for a `Set` command, `Delete(Key)` for a `Delete`
command. -/
theorem Apply_quorum (appendAll : Raft → Int → List LogEntry → Bool × Raft)
    (r : Raft) (c : Command) (hleader : r.state = State.Leader)
    (hop : c.Op = Operation.Set ∨ c.Op = Operation.Delete)
    (hquorum : (appendAll { r with log := (r.log.appendCmd c).2 }
      (r.log.appendCmd c).1.Index [(r.log.appendCmd c).1]).1 = true) :
    (r.Apply appendAll c).err = none ∧
      (c.Op = Operation.Set →
        (r.Apply appendAll c).calls = [StoreCall.Set c.Key c.Val]) ∧
      (c.Op = Operation.Delete →
        (r.Apply appendAll c).calls = [StoreCall.Delete c.Key]) := by
  have hne : Operation.Set ≠ Operation.Delete := by decide
  have hrole : ¬ r.state ≠ State.Leader := not_not.mpr hleader
  unfold Raft.Apply
  rw [if_neg hrole]
  simp only [hquorum, Bool.not_true, Bool.false_eq_true, if_false]
  rcases hop with hset | hdel
  · have hnd : ¬ c.Op = Operation.Delete := fun hd => hne (hset.symm.trans hd)
    rw [if_pos hset]
    exact ⟨rfl, fun _ => rfl, fun hd => absurd hd hnd⟩
  · have hns : ¬ c.Op = Operation.Set := fun hs => hne (hs.symm.trans hdel)
    rw [if_neg hns, if_pos hdel]
    exact ⟨rfl, fun hs => absurd hs hns, fun _ => rfl⟩

/-- Instance of C8: a leader applying a `Set` command. -/
theorem Apply_quorum_witness :
    ((Raft.mk "n1" 8000 1 State.Leader ["n2", "n3"] (emptyLog 1) []).Apply
        (fun r _ _ => (true, r)) sampleCmd).err = none ∧
      (sampleCmd.Op = Operation.Set →
        ((Raft.mk "n1" 8000 1 State.Leader ["n2", "n3"] (emptyLog 1) []).Apply
          (fun r _ _ => (true, r)) sampleCmd).calls =
            [StoreCall.Set sampleCmd.Key sampleCmd.Val]) ∧
      (sampleCmd.Op = Operation.Delete →
        ((Raft.mk "n1" 8000 1 State.Leader ["n2", "n3"] (emptyLog 1) []).Apply
          (fun r _ _ => (true, r)) sampleCmd).calls =
            [StoreCall.Delete sampleCmd.Key]) :=
  Apply_quorum (fun r _ _ => (true, r))
    (Raft.mk "n1" 8000 1 State.Leader ["n2", "n3"] (emptyLog 1) []) sampleCmd
    rfl (Or.inl (by decide)) rfl

/-- C9: on a leader, when the replication round started for the new entry
reports that quorum was not reached, `Apply` returns no error and makes no
store call. -/
theorem Apply_no_quorum (appendAll : Raft → Int → List LogEntry → Bool × Raft)
    (r : Raft) (c : Command) (hleader : r.state = State.Leader)
    (hquorum : (appendAll { r with log := (r.log.appendCmd c).2 }
      (r.log.appendCmd c).1.Index [(r.log.appendCmd c).1]).1 = false) :
    (r.Apply appendAll c).err = none ∧ (r.Apply appendAll c).calls = [] := by
  have hrole : ¬ r.state ≠ State.Leader := not_not.mpr hleader
  unfold Raft.Apply
  rw [if_neg hrole]
  simp only [hquorum, Bool.not_false, if_true, and_self]

/-- Instance of C9: a leader whose peers do not acknowledge. -/
theorem Apply_no_quorum_witness :
    ((Raft.mk "n1" 8000 1 State.Leader ["n2", "n3"] (emptyLog 1) []).Apply
        (fun r _ _ => (false, r)) sampleCmd).err = none ∧
      ((Raft.mk "n1" 8000 1 State.Leader ["n2", "n3"] (emptyLog 1) []).Apply
        (fun r _ _ => (false, r)) sampleCmd).calls = [] :=
  Apply_no_quorum (fun r _ _ => (false, r))
    (Raft.mk "n1" 8000 1 State.Leader ["n2", "n3"] (emptyLog 1) []) sampleCmd
    rfl rfl

/-! ## CurrentTerm across calls -/

/-- C10 as stated fails: an accepted `Append` copies the term of the last
given entry into `CurrentTerm`, here 1 on a log whose `CurrentTerm` was 5. -/
theorem Append_lowers_CurrentTerm :
    (emptyLog 5).Append 5 0 0 0 [entry 1 0] =
        some (true, Log.mk 1 0 (-1) [entry 1 0]) ∧
      (Log.mk 1 0 (-1) [entry 1 0]).CurrentTerm < (emptyLog 5).CurrentTerm := by
  decide

/-- C10, amended: `appendCmd` and a completed `commit` leave `CurrentTerm`
unchanged; after an `Append` that returns false `CurrentTerm` is not below its
old value; after an `Append` that returns true `CurrentTerm` is the term of
the last given entry, so it is not below its old value exactly when that term
is not. -/
theorem CurrentTerm_after_call (l : Log) :
    (∀ c, (l.appendCmd c).2.CurrentTerm = l.CurrentTerm) ∧
    (∀ idx ret l2, l.commit idx = some (ret, l2) → l2.CurrentTerm = l.CurrentTerm) ∧
    (∀ term prevIndex prevTerm commitIndex entries l2,
      l.Append term prevIndex prevTerm commitIndex entries = some (false, l2) →
        l.CurrentTerm ≤ l2.CurrentTerm) ∧
    (∀ term prevIndex prevTerm commitIndex entries l2,
      l.Append term prevIndex prevTerm commitIndex entries = some (true, l2) →
        ∃ hne : entries ≠ [], l2.CurrentTerm = (entries.getLast hne).Term ∧
          (l.CurrentTerm ≤ l2.CurrentTerm ↔ l.CurrentTerm ≤ (entries.getLast hne).Term)) := by
  refine ⟨fun c => rfl, ?_, ?_, ?_⟩
  · intro idx ret l2 h
    unfold Log.commit at h
    split at h
    · simp only [Option.some.injEq, Prod.mk.injEq] at h
      rw [← h.2]
    · split at h
      · exact absurd h (by simp)
      · simp only [Option.some.injEq, Prod.mk.injEq] at h
        rw [← h.2]
  · intro term prevIndex prevTerm commitIndex entries l2 h
    rcases Append_false_result l term prevIndex prevTerm commitIndex entries l2 h with
      rfl | ⟨hle, rfl⟩
    · exact le_refl _
    · exact hle
  · intro term prevIndex prevTerm commitIndex entries l2 h
    obtain ⟨hne, rfl⟩ := Append_true_result l term prevIndex prevTerm commitIndex entries l2 h
    exact ⟨hne, rfl, Iff.rfl⟩

/-- Instance of C10 amended: a rejected call that raises the term from 2 to 3,
and an accepted call that leaves the term of its last entry. -/
theorem CurrentTerm_after_call_witness :
    (Log.mk 2 0 (-1) [entry 2 0]).CurrentTerm ≤ (Log.mk 3 0 (-1) [entry 2 0]).CurrentTerm ∧
      ∃ hne : [entry 4 1] ≠ [],
        (Log.mk 4 1 (-1) [entry 2 0, entry 4 1]).CurrentTerm =
            ([entry 4 1].getLast hne).Term ∧
          ((Log.mk 2 0 (-1) [entry 2 0]).CurrentTerm ≤
              (Log.mk 4 1 (-1) [entry 2 0, entry 4 1]).CurrentTerm ↔
            (Log.mk 2 0 (-1) [entry 2 0]).CurrentTerm ≤ ([entry 4 1].getLast hne).Term) :=
  ⟨(CurrentTerm_after_call (Log.mk 2 0 (-1) [entry 2 0])).2.2.1 3 0 1 0 [entry 3 1]
      (Log.mk 3 0 (-1) [entry 2 0]) (by decide),
   (CurrentTerm_after_call (Log.mk 2 0 (-1) [entry 2 0])).2.2.2 4 0 2 0 [entry 4 1]
      (Log.mk 4 1 (-1) [entry 2 0, entry 4 1]) (by decide)⟩

/-! ## What an accepted or rejected Append leaves behind -/

/-- C13: after an `Append` call with a non-empty batch that returns true, the
stored sequence is the previous one followed by the batch in order,
`CurrentIndex` is the index of the last given entry and `CurrentTerm` its
term. -/
theorem Append_accepted_appends (l : Log) (term prevIndex prevTerm commitIndex : Int)
    (entries : List LogEntry) (l2 : Log) (hne : entries ≠ [])
    (h : l.Append term prevIndex prevTerm commitIndex entries = some (true, l2)) :
    l2.logs = l.logs ++ entries ∧
      l2.CurrentIndex = (entries.getLast hne).Index ∧
      l2.CurrentTerm = (entries.getLast hne).Term := by
  obtain ⟨_, rfl⟩ := Append_true_result l term prevIndex prevTerm commitIndex entries l2 h
  exact ⟨rfl, rfl, rfl⟩

/-- Instance of C13: one entry appended after a matching entry at `prevIndex`. -/
theorem Append_accepted_appends_witness :
    (Log.mk 2 1 (-1) [entry 1 0, entry 2 1]).logs = [entry 1 0] ++ [entry 2 1] ∧
      (Log.mk 2 1 (-1) [entry 1 0, entry 2 1]).CurrentIndex =
        ([entry 2 1].getLast (List.cons_ne_nil _ _)).Index ∧
      (Log.mk 2 1 (-1) [entry 1 0, entry 2 1]).CurrentTerm =
        ([entry 2 1].getLast (List.cons_ne_nil _ _)).Term :=
  Append_accepted_appends (Log.mk 1 0 (-1) [entry 1 0]) 2 0 1 0 [entry 2 1]
    (Log.mk 2 1 (-1) [entry 1 0, entry 2 1]) (List.cons_ne_nil _ _) (by decide)

/-- C14 as stated fails: on the follower of scenario B the call is not
rejected; it returns true and stores the entry. -/
theorem scenarioB_not_rejected :
    (Log.mk 0 0 (-1) [entry 0 0]).Append 1 0 0 0 [entry 1 1] =
        some (true, Log.mk 1 1 (-1) [entry 0 0, entry 1 1]) ∧
      ¬ ∃ l2, (Log.mk 0 0 (-1) [entry 0 0]).Append 1 0 0 0 [entry 1 1] = some (false, l2) := by
  refine ⟨by decide, ?_⟩
  rintro ⟨l2, h⟩
  have h1 : (Log.mk 0 0 (-1) [entry 0 0]).Append 1 0 0 0 [entry 1 1] =
      some (true, Log.mk 1 1 (-1) [entry 0 0, entry 1 1]) := by decide
  rw [h1] at h
  simp at h

/-- C14, amended: on a follower log holding exactly one entry, with index 0
and term 0 (`CurrentIndex = 0`, `CurrentTerm = 0`, `CommitIndex = -1`), the
call `Append(1, 0, 0, commitIndex, [one entry with term 1 and index 1])` is
accepted for every `commitIndex`: the stored term at `prevIndex = 0` equals
`prevTerm = 0`, the call returns true and the entry is stored second. -/
theorem scenarioB_accepted (commitIndex : Int) (stored given : LogEntry)
    (hsi : stored.Index = 0) (hst : stored.Term = 0)
    (hgi : given.Index = 1) (hgt : given.Term = 1) :
    (Log.mk 0 0 (-1) [stored]).Append 1 0 0 commitIndex [given] =
      some (true, Log.mk 1 1 (-1) [stored, given]) := by
  simp [Log.Append, Log.append, index, hst, hgi, hgt]

/-- Instance of C14 amended, with a commit index the follower has not reached. -/
theorem scenarioB_accepted_witness :
    (Log.mk 0 0 (-1) [entry 0 0]).Append 1 0 0 5 [entry 1 1] =
      some (true, Log.mk 1 1 (-1) [entry 0 0, entry 1 1]) :=
  scenarioB_accepted 5 (entry 0 0) (entry 1 1) rfl rfl rfl rfl

/-- C17: an `Append` call whose term is not stale and that returns false
leaves `CurrentTerm` equal to the presented term, and the stored entries,
`CurrentIndex` and `CommitIndex` as they were. -/
theorem Append_rejected_adopts_term (l : Log) (term prevIndex prevTerm commitIndex : Int)
    (entries : List LogEntry) (l2 : Log) (hterm : l.CurrentTerm ≤ term)
    (h : l.Append term prevIndex prevTerm commitIndex entries = some (false, l2)) :
    l2.CurrentTerm = term ∧ l2.logs = l.logs ∧
      l2.CurrentIndex = l.CurrentIndex ∧ l2.CommitIndex = l.CommitIndex := by
  have hstale : ¬ term < l.CurrentTerm := not_lt.mpr hterm
  have hres : l2 = { l with CurrentTerm := term } := by
    unfold Log.Append at h
    rw [if_neg hstale] at h
    dsimp only at h
    split at h
    · simp at h
    · split at h
      · split at h <;> simp at h
      · split at h
        · simp only [Option.some.injEq, Prod.mk.injEq, true_and] at h
          exact h.symm
        · split at h
          · simp at h
          · split at h
            · simp only [Option.some.injEq, Prod.mk.injEq, true_and] at h
              exact h.symm
            · split at h <;> simp at h
  subst hres
  exact ⟨rfl, rfl, rfl, rfl⟩

/-- Instance of C17: a follower at term 1 rejects a call of term 4 whose
`prevIndex` is beyond its log, and is at term 4 afterwards. -/
theorem Append_rejected_adopts_term_witness :
    (Log.mk 4 0 (-1) [entry 1 0]).CurrentTerm = 4 ∧
      (Log.mk 4 0 (-1) [entry 1 0]).logs = (Log.mk 1 0 (-1) [entry 1 0]).logs ∧
      (Log.mk 4 0 (-1) [entry 1 0]).CurrentIndex = (Log.mk 1 0 (-1) [entry 1 0]).CurrentIndex ∧
      (Log.mk 4 0 (-1) [entry 1 0]).CommitIndex = (Log.mk 1 0 (-1) [entry 1 0]).CommitIndex :=
  Append_rejected_adopts_term (Log.mk 1 0 (-1) [entry 1 0]) 4 3 1 0 [entry 4 4]
    (Log.mk 4 0 (-1) [entry 1 0]) (by decide) (by decide)

/-- Every completed `Append` keeps the commit index and keeps each stored
entry at its position. -/
theorem Append_keeps_stored (l : Log) (term prevIndex prevTerm commitIndex : Int)
    (entries : List LogEntry) (b : Bool) (l2 : Log)
    (h : l.Append term prevIndex prevTerm commitIndex entries = some (b, l2)) :
    l2.CommitIndex = l.CommitIndex ∧
      ∀ (p : Nat) (e : LogEntry), l.logs[p]? = some e → l2.logs[p]? = some e := by
  cases b with
  | true =>
    obtain ⟨_, rfl⟩ := Append_true_result l term prevIndex prevTerm commitIndex entries l2 h
    refine ⟨rfl, ?_⟩
    intro p e hp
    have hlt : p < l.logs.length := (List.getElem?_eq_some_iff.mp hp).1
    simp only [List.getElem?_append_left hlt, hp]
  | false =>
    rcases Append_false_result l term prevIndex prevTerm commitIndex entries l2 h with
      rfl | ⟨_, rfl⟩
    · exact ⟨rfl, fun _ _ hp => hp⟩
    · exact ⟨rfl, fun _ _ hp => hp⟩

/-- C18: a completed `Append` leaves `CommitIndex` and every previously stored
entry, its `Committed` flag included, as they were; and the returned boolean
and the log afterwards do not depend on the `commitIndex` argument. -/
theorem Append_ignores_commitIndex (l : Log) (term prevIndex prevTerm : Int)
    (entries : List LogEntry) (commitIndex : Int) :
    (∀ other : Int, l.Append term prevIndex prevTerm other entries =
        l.Append term prevIndex prevTerm commitIndex entries) ∧
      (∀ (b : Bool) (l2 : Log),
        l.Append term prevIndex prevTerm commitIndex entries = some (b, l2) →
          l2.CommitIndex = l.CommitIndex ∧
          ∀ (p : Nat) (e : LogEntry), l.logs[p]? = some e →
            ∃ e2, l2.logs[p]? = some e2 ∧ e2.Committed = e.Committed) := by
  refine ⟨fun other => rfl, ?_⟩
  intro b l2 h
  obtain ⟨hc, hkeep⟩ :=
    Append_keeps_stored l term prevIndex prevTerm commitIndex entries b l2 h
  exact ⟨hc, fun p e hp => ⟨e, hkeep p e hp, rfl⟩⟩

/-- Instance of C18: the leader announces commit index 1 for an entry the
follower holds uncommitted; the follower commits nothing, and the outcome is
the one of the same call with commit index 0. -/
theorem Append_ignores_commitIndex_witness :
    (Log.mk 1 0 (-1) [entry 1 0]).Append 1 0 1 0 [entry 1 1] =
        (Log.mk 1 0 (-1) [entry 1 0]).Append 1 0 1 1 [entry 1 1] ∧
      (Log.mk 1 1 (-1) [entry 1 0, entry 1 1]).CommitIndex = -1 ∧
      ∀ (p : Nat) (e : LogEntry), [entry 1 0][p]? = some e →
        ∃ e2, [entry 1 0, entry 1 1][p]? = some e2 ∧ e2.Committed = e.Committed :=
  ⟨(Append_ignores_commitIndex (Log.mk 1 0 (-1) [entry 1 0]) 1 0 1 [entry 1 1] 1).1 0,
   (Append_ignores_commitIndex (Log.mk 1 0 (-1) [entry 1 0]) 1 0 1 [entry 1 1] 1).2 true
     (Log.mk 1 1 (-1) [entry 1 0, entry 1 1]) (by decide)⟩

/-- C20: on a log whose number of stored entries is `CurrentIndex + 1`, an
`Append` call with a non-empty batch and `prevIndex ≥ 0` completes: none of
the reads of `entries[0]`, of the stored entry at `prevIndex` and of the last
stored entry after appending is out of range. -/
theorem Append_completes (l : Log) (term prevIndex prevTerm commitIndex : Int)
    (entries : List LogEntry)
    (hlen : (l.logs.length : Int) = l.CurrentIndex + 1)
    (hne : entries ≠ []) (hprev : 0 ≤ prevIndex) :
    ∃ b l2, l.Append term prevIndex prevTerm commitIndex entries = some (b, l2) := by
  obtain ⟨first, rest, rfl⟩ := List.exists_cons_of_ne_nil hne
  unfold Log.Append
  split
  · exact ⟨_, _, rfl⟩
  · simp only [index_zero_cons, append_nonempty _ _ hne]
    split
    · exact ⟨_, _, rfl⟩
    · split
      · exact ⟨_, _, rfl⟩
      · rename_i hnlt
        simp only [not_lt] at hnlt
        have hin : prevIndex.toNat < l.logs.length := by omega
        rw [index_of_nonneg _ _ hprev, List.getElem?_eq_getElem hin]
        dsimp only
        split
        · exact ⟨_, _, rfl⟩
        · exact ⟨_, _, rfl⟩

/-- Instance of C20: a rejected call (term mismatch at `prevIndex`) that still
reads only valid positions. -/
theorem Append_completes_witness :
    ∃ b l2, (Log.mk 1 0 (-1) [entry 1 0]).Append 2 0 7 0 [entry 2 1] = some (b, l2) :=
  Append_completes (Log.mk 1 0 (-1) [entry 1 0]) 2 0 7 0 [entry 2 1]
    (by decide) (by decide) (by decide)

/-! ## Completed commits -/

theorem index_some (s : List LogEntry) (i : Int) (e : LogEntry) (h : index s i = some e) :
    0 ≤ i ∧ i.toNat < s.length := by
  unfold index at h
  split at h
  · rename_i h0
    exact ⟨h0, (List.getElem?_eq_some_iff.mp h).1⟩
  · simp at h

/-- A loop of `commit` that runs at least once and completes visited only
valid positions. -/
theorem commitLoop_bounds (n : Nat) : ∀ (i : Int) (logs acc : List LogEntry)
    (r : List LogEntry × List LogEntry),
    commitLoop (n + 1) i logs acc = some r → 0 ≤ i ∧ i + (n + 1) ≤ (logs.length : Int) := by
  induction n with
  | zero =>
    intro i logs acc r h
    simp only [commitLoop] at h
    split at h
    · simp at h
    · rename_i e he
      have hb := index_some logs i e he
      omega
  | succ n ih =>
    intro i logs acc r h
    rw [commitLoop] at h
    split at h
    · simp at h
    · rename_i e he
      have hb := index_some logs i e he
      have hrec := ih (i + 1) _ _ r h
      simp only [List.length_set] at hrec
      omega

/-- What a completed `commit` did: nothing when `idx ≤ CommitIndex`; otherwise
`-1 ≤ CommitIndex < idx < number of stored entries`, `CommitIndex` is `idx`
afterwards and the `Committed` flag is set on the positions
`CommitIndex + 1 .. idx`, with nothing else changed. -/
theorem commit_completed (l : Log) (idx : Int) (ret : List LogEntry) (l2 : Log)
    (h : l.commit idx = some (ret, l2)) :
    (idx ≤ l.CommitIndex ∧ ret = [] ∧ l2 = l) ∨
      (l.CommitIndex < idx ∧ -1 ≤ l.CommitIndex ∧ idx < (l.logs.length : Int) ∧
        l2.CurrentTerm = l.CurrentTerm ∧ l2.CurrentIndex = l.CurrentIndex ∧
        l2.CommitIndex = idx ∧ l2.logs.length = l.logs.length ∧
        ∀ p : Nat, l2.logs[p]? = (l.logs[p]?).map
          (fun e => if l.CommitIndex < (p : Int) ∧ (p : Int) ≤ idx
            then { e with Committed := true } else e)) := by
  unfold Log.commit at h
  split at h
  · rename_i hge
    simp only [Option.some.injEq, Prod.mk.injEq] at h
    exact Or.inl ⟨hge, h.1.symm, h.2.symm⟩
  · rename_i hlt
    right
    split at h
    · simp at h
    · rename_i logs2 committedLogs hloop
      simp only [Option.some.injEq, Prod.mk.injEq] at h
      obtain ⟨m, hm⟩ : ∃ m : Nat, (idx - l.CommitIndex).toNat = m + 1 :=
        ⟨(idx - l.CommitIndex).toNat - 1, by omega⟩
      rw [hm] at hloop
      have hb := commitLoop_bounds m _ _ _ _ hloop
      obtain ⟨a, ha⟩ : ∃ a : Nat, l.CommitIndex + 1 = (a : Int) :=
        ⟨(l.CommitIndex + 1).toNat, by omega⟩
      have hbound : a + (m + 1) ≤ l.logs.length := by omega
      obtain ⟨logs3, hrun, hlen, hget⟩ := commitLoop_spec (m + 1) a l.logs [] hbound
      rw [ha, hrun] at hloop
      simp only [Option.some.injEq, Prod.mk.injEq] at hloop
      obtain ⟨hlogs, _⟩ := hloop
      subst hlogs
      rw [← h.2]
      refine ⟨by omega, by omega, by omega, rfl, rfl, rfl, hlen, ?_⟩
      intro p
      rw [hget p]
      have hiff : (a ≤ p ∧ p < a + (m + 1)) ↔
          (l.CommitIndex < (p : Int) ∧ (p : Int) ≤ idx) := by
        omega
      cases l.logs[p]? with
      | none => rfl
      | some e => simp only [Option.map, hiff]

/-- C12: a completed `Append`, `appendCmd` or `commit` leaves every entry
stored at a position `≤ CommitIndex` (as it was before the call) at the same
position, with the same term, index, `Committed` flag and command. -/
theorem committed_entries_kept (l : Log) (c : Call) (l2 : Log) (h : l.call c = some l2)
    (p : Nat) (e : LogEntry) (hp : (p : Int) ≤ l.CommitIndex) (he : l.logs[p]? = some e) :
    l2.logs[p]? = some e := by
  cases c with
  | Append a =>
    simp only [Log.call] at h
    split at h
    · simp at h
    · rename_i b l3 hA
      simp only [Option.some.injEq] at h
      subst h
      exact (Append_keeps_stored l _ _ _ _ _ b l3 hA).2 p e he
  | appendCmd cmd =>
    simp only [Log.call, Log.appendCmd, Option.some.injEq] at h
    subst h
    have hlt : p < l.logs.length := (List.getElem?_eq_some_iff.mp he).1
    simp only [List.getElem?_append_left hlt, he]
  | commit idx =>
    simp only [Log.call] at h
    split at h
    · simp at h
    · rename_i ret l3 hC
      simp only [Option.some.injEq] at h
      subst h
      rcases commit_completed l idx ret l3 hC with ⟨_, _, rfl⟩ | ⟨_, _, _, _, _, _, _, hget⟩
      · exact he
      · have hout : ¬ (l.CommitIndex < (p : Int) ∧ (p : Int) ≤ idx) := by omega
        rw [hget p, he]
        simp only [Option.map, hout, if_false]

/-- Instance of C12: a commit of position 1 leaves the committed entry at
position 0 as it was. -/
theorem committed_entries_kept_witness :
    (Log.mk 1 1 1 [LogEntry.mk 1 0 true sampleCmd, LogEntry.mk 1 1 true sampleCmd]).logs[0]? =
      some (LogEntry.mk 1 0 true sampleCmd) :=
  committed_entries_kept (Log.mk 1 1 0 [LogEntry.mk 1 0 true sampleCmd, entry 1 1])
    (Call.commit 1)
    (Log.mk 1 1 1 [LogEntry.mk 1 0 true sampleCmd, LogEntry.mk 1 1 true sampleCmd])
    (by decide) 0 (LogEntry.mk 1 0 true sampleCmd) (by decide) (by decide)

/-! ## Reachable states -/

theorem wrapInt_of_range (x : Int) (h1 : -2 ^ 63 ≤ x) (h2 : x < 2 ^ 63) :
    wrapInt x = x := by
  unfold wrapInt
  norm_num at h1 h2 ⊢
  omega

theorem wrapInt_of_nat (n : Nat) (h : n < 2 ^ 63) : wrapInt (n : Int) = n := by
  apply wrapInt_of_range
  · have : (0 : Int) ≤ n := Int.ofNat_nonneg n
    norm_num
    omega
  · exact_mod_cast h

/-- No call removes a stored entry. -/
theorem call_length_le (l : Log) (c : Call) (l2 : Log) (h : l.call c = some l2) :
    l.logs.length ≤ l2.logs.length := by
  cases c with
  | Append a =>
    simp only [Log.call] at h
    split at h
    · simp at h
    · rename_i b l3 hA
      simp only [Option.some.injEq] at h
      subst h
      cases b with
      | true =>
        obtain ⟨_, rfl⟩ := Append_true_result l _ _ _ _ _ l3 hA
        simp
      | false =>
        rcases Append_false_result l _ _ _ _ _ l3 hA with rfl | ⟨_, rfl⟩ <;> exact le_refl _
  | appendCmd cmd =>
    simp only [Log.call, Log.appendCmd, Option.some.injEq] at h
    subst h
    simp
  | commit idx =>
    simp only [Log.call] at h
    split at h
    · simp at h
    · rename_i ret l3 hC
      simp only [Option.some.injEq] at h
      subst h
      rcases commit_completed l idx ret l3 hC with ⟨_, _, rfl⟩ | ⟨_, _, _, _, _, _, hlen, _⟩
      · exact le_refl _
      · exact le_of_eq hlen.symm

theorem calls_length_le (cs : List Call) : ∀ (l l2 : Log), l.calls cs = some l2 →
    l.logs.length ≤ l2.logs.length := by
  induction cs with
  | nil =>
    intro l l2 h
    simp only [Log.calls, Option.some.injEq] at h
    exact le_of_eq (congrArg (fun m => m.logs.length) h)
  | cons c rest ih =>
    intro l l2 h
    simp only [Log.calls] at h
    split at h
    · simp at h
    · rename_i l1 h1
      exact le_trans (call_length_le l c l1 h1) (ih l1 l2 h)

/-- One call keeps `CurrentIndex = number of stored entries - 1` and
`CommitIndex ≤ CurrentIndex`, when an accepted batch is numbered from
`CurrentIndex + 1` and the entries afterwards still fit a Go slice. -/
theorem call_commit_le (l : Log) (c : Call) (l2 : Log)
    (hcur : l.CurrentIndex = (l.logs.length : Int) - 1)
    (hle : l.CommitIndex ≤ l.CurrentIndex)
    (hnum : numberedCalls l [c] = true) (h : l.call c = some l2)
    (hfit : l2.logs.length < 2 ^ 63) :
    l2.CurrentIndex = (l2.logs.length : Int) - 1 ∧ l2.CommitIndex ≤ l2.CurrentIndex := by
  cases c with
  | Append a =>
    simp only [Log.call] at h
    split at h
    · simp at h
    · rename_i b l3 hA
      simp only [Option.some.injEq] at h
      subst h
      cases b with
      | true =>
        simp only [numberedCalls, hA, Bool.and_eq_true] at hnum
        have hnth := numberedFrom_getElem a.entries (l.CurrentIndex + 1) hnum.1
        obtain ⟨hne, rfl⟩ := Append_true_result l _ _ _ _ _ l3 hA
        have hpos : 0 < a.entries.length := List.length_pos.mpr hne
        have hlast : a.entries[a.entries.length - 1]? = some (a.entries.getLast hne) := by
          rw [List.getLast_eq_getElem, List.getElem?_eq_getElem]
        have hidx := hnth _ _ hlast
        simp only [List.length_append]
        rw [hidx]
        push_cast
        omega
      | false =>
        rcases Append_false_result l _ _ _ _ _ l3 hA with rfl | ⟨_, rfl⟩ <;>
          exact ⟨hcur, hle⟩
  | appendCmd cmd =>
    simp only [Log.call, Log.appendCmd, Option.some.injEq] at h
    subst h
    simp only [List.length_append, List.length_singleton] at hfit ⊢
    have hw : wrapInt (l.CurrentIndex + 1) = l.CurrentIndex + 1 := by
      rw [hcur, sub_add_cancel]
      exact wrapInt_of_nat _ (by omega)
    rw [hw]
    push_cast
    omega
  | commit idx =>
    simp only [Log.call] at h
    split at h
    · simp at h
    · rename_i ret l3 hC
      simp only [Option.some.injEq] at h
      subst h
      rcases commit_completed l idx ret l3 hC with
        ⟨_, _, rfl⟩ | ⟨_, _, hlt, _, hci, hco, hlen, _⟩
      · exact ⟨hcur, hle⟩
      · rw [hci, hco, hlen]
        exact ⟨hcur, by omega⟩

theorem numberedCalls_cons (l : Log) (c : Call) (rest : List Call) (l1 : Log)
    (h1 : l.call c = some l1) (h : numberedCalls l (c :: rest) = true) :
    numberedCalls l [c] = true ∧ numberedCalls l1 rest = true := by
  simp only [numberedCalls, h1, Bool.and_eq_true] at h ⊢
  exact ⟨⟨h.1, trivial⟩, h.2⟩

theorem calls_commit_le (cs : List Call) : ∀ (l l2 : Log),
    l.CurrentIndex = (l.logs.length : Int) - 1 → l.CommitIndex ≤ l.CurrentIndex →
    numberedCalls l cs = true → l.calls cs = some l2 → l2.logs.length < 2 ^ 63 →
    l2.CurrentIndex = (l2.logs.length : Int) - 1 ∧ l2.CommitIndex ≤ l2.CurrentIndex := by
  induction cs with
  | nil =>
    intro l l2 hcur hle _ hrun _
    simp only [Log.calls, Option.some.injEq] at hrun
    subst hrun
    exact ⟨hcur, hle⟩
  | cons c rest ih =>
    intro l l2 hcur hle hnum hrun hfit
    simp only [Log.calls] at hrun
    split at hrun
    · simp at hrun
    · rename_i l1 h1
      obtain ⟨hn1, hn2⟩ := numberedCalls_cons l c rest l1 h1 hnum
      have hfit1 : l1.logs.length < 2 ^ 63 :=
        lt_of_le_of_lt (calls_length_le rest l1 l2 hrun) hfit
      obtain ⟨hcur1, hle1⟩ := call_commit_le l c l1 hcur hle hn1 h1 hfit1
      exact ih l1 l2 hcur1 hle1 hn2 hrun hfit

/-- C11 as stated fails: after a bootstrap batch with indices 0 and 1, a second
accepted batch that repeats index 1 after `prevIndex = 0` is stored third
(nothing is truncated) and leaves `CurrentIndex = 1`; `commit 2` then
completes and leaves `CommitIndex = 2`. -/
theorem reachable_commit_beyond_current :
    (emptyLog 0).calls
        [Call.Append (AppendArgs.mk 1 0 0 0 [entry 1 0, entry 1 1]),
         Call.Append (AppendArgs.mk 1 0 1 0 [entry 1 1]),
         Call.commit 2] =
      some (Log.mk 1 1 2 [LogEntry.mk 1 0 true sampleCmd, LogEntry.mk 1 1 true sampleCmd,
        LogEntry.mk 1 1 true sampleCmd]) ∧
      ¬ (Log.mk 1 1 2 [LogEntry.mk 1 0 true sampleCmd, LogEntry.mk 1 1 true sampleCmd,
        LogEntry.mk 1 1 true sampleCmd]).CommitIndex ≤
        (Log.mk 1 1 2 [LogEntry.mk 1 0 true sampleCmd, LogEntry.mk 1 1 true sampleCmd,
          LogEntry.mk 1 1 true sampleCmd]).CurrentIndex := by
  decide

/-- C11, amended: a log state reached from the initial state
(`CommitIndex = -1`, `CurrentIndex = -1`, nothing stored) through completed
`Append`, `appendCmd` and `commit` calls, in which every accepted `Append`
batch is numbered consecutively from the `CurrentIndex + 1` of the log it is
applied to, satisfies `CommitIndex ≤ CurrentIndex` (the stored entries fitting
a Go slice, fewer than `2 ^ 63`). -/
theorem reachable_numbered_commit_le (l : Log) (cs : List Call) (l2 : Log)
    (hidx : l.CurrentIndex = -1) (hcommit : l.CommitIndex = -1) (hlogs : l.logs = [])
    (hnum : numberedCalls l cs = true) (hrun : l.calls cs = some l2)
    (hfit : l2.logs.length < 2 ^ 63) :
    l2.CommitIndex ≤ l2.CurrentIndex := by
  have hcur : l.CurrentIndex = (l.logs.length : Int) - 1 := by simp [hlogs, hidx]
  have hle : l.CommitIndex ≤ l.CurrentIndex := by omega
  exact (calls_commit_le cs l l2 hcur hle hnum hrun hfit).2

/-- Instance of C11 amended: a follower batch, a leader-side `appendCmd` and a
commit of everything. -/
theorem reachable_numbered_commit_le_witness :
    (Log.mk 1 2 2 [LogEntry.mk 1 0 true sampleCmd, LogEntry.mk 1 1 true sampleCmd,
        LogEntry.mk 1 2 true sampleCmd]).CommitIndex ≤
      (Log.mk 1 2 2 [LogEntry.mk 1 0 true sampleCmd, LogEntry.mk 1 1 true sampleCmd,
        LogEntry.mk 1 2 true sampleCmd]).CurrentIndex :=
  reachable_numbered_commit_le (emptyLog 0)
    [Call.Append (AppendArgs.mk 1 0 0 0 [entry 1 0, entry 1 1]),
     Call.appendCmd sampleCmd, Call.commit 2]
    (Log.mk 1 2 2 [LogEntry.mk 1 0 true sampleCmd, LogEntry.mk 1 1 true sampleCmd,
      LogEntry.mk 1 2 true sampleCmd])
    rfl rfl rfl (by decide) (by decide) (by decide)

/-! ## Committed flags in reachable states -/

/-- One call keeps `CommitIndex` below the number of stored entries and the
entries up to `CommitIndex` flagged; when it hands no flagged entry to
`Append`, it also keeps the flagged entries exactly those up to `CommitIndex`. -/
theorem call_committed_below (l : Log) (c : Call) (l2 : Log) (h : l.call c = some l2)
    (hlt : l.CommitIndex < (l.logs.length : Int))
    (hupto : ∀ (p : Nat) (e : LogEntry), l.logs[p]? = some e →
      (p : Int) ≤ l.CommitIndex → e.Committed = true) :
    (l2.CommitIndex < (l2.logs.length : Int) ∧
      ∀ (p : Nat) (e : LogEntry), l2.logs[p]? = some e →
        (p : Int) ≤ l2.CommitIndex → e.Committed = true) ∧
    (unflaggedCalls [c] = true →
      (∀ (p : Nat) (e : LogEntry), l.logs[p]? = some e →
        e.Committed = true → (p : Int) ≤ l.CommitIndex) →
      ∀ (p : Nat) (e : LogEntry), l2.logs[p]? = some e →
        e.Committed = true → (p : Int) ≤ l2.CommitIndex) := by
  cases c with
  | Append a =>
    simp only [Log.call] at h
    split at h
    · simp at h
    · rename_i b l3 hA
      simp only [Option.some.injEq] at h
      subst h
      cases b with
      | true =>
        obtain ⟨_, rfl⟩ := Append_true_result l _ _ _ _ _ l3 hA
        refine ⟨⟨?_, ?_⟩, ?_⟩
        · simp only [List.length_append]
          push_cast
          omega
        · intro p e hp hle
          have hin : p < l.logs.length := by
            simp only at hle
            omega
          rw [List.getElem?_append_left hin] at hp
          exact hupto p e hp hle
        · intro hun honly p e hp hc
          simp only [unflaggedCalls, Bool.and_true, List.all_eq_true, Bool.not_eq_true_eq_eq_false]
            at hun
          by_cases hin : p < l.logs.length
          · rw [List.getElem?_append_left hin] at hp
            exact honly p e hp hc
          · rw [List.getElem?_append_right (not_lt.mp hin)] at hp
            have hmem : e ∈ a.entries := List.getElem?_mem hp
            rw [hun e hmem] at hc
            exact absurd hc (by simp)
      | false =>
        rcases Append_false_result l _ _ _ _ _ l3 hA with rfl | ⟨_, rfl⟩ <;>
          exact ⟨⟨hlt, hupto⟩, fun _ honly => honly⟩
  | appendCmd cmd =>
    simp only [Log.call, Log.appendCmd, Option.some.injEq] at h
    subst h
    refine ⟨⟨?_, ?_⟩, ?_⟩
    · simp only [List.length_append, List.length_singleton]
      push_cast
      omega
    · intro p e hp hle
      have hin : p < l.logs.length := by
        simp only at hle
        omega
      rw [List.getElem?_append_left hin] at hp
      exact hupto p e hp hle
    · intro _ honly p e hp hc
      by_cases hin : p < l.logs.length
      · rw [List.getElem?_append_left hin] at hp
        exact honly p e hp hc
      · rw [List.getElem?_append_right (not_lt.mp hin)] at hp
        have hmem := List.getElem?_mem hp
        simp only [List.mem_singleton] at hmem
        rw [hmem] at hc
        exact absurd hc (by simp)
  | commit idx =>
    simp only [Log.call] at h
    split at h
    · simp at h
    · rename_i ret l3 hC
      simp only [Option.some.injEq] at h
      subst h
      rcases commit_completed l idx ret l3 hC with
        ⟨_, _, rfl⟩ | ⟨hlo, _, hhi, _, _, hco, hlen, hget⟩
      · exact ⟨⟨hlt, hupto⟩, fun _ honly => honly⟩
      · refine ⟨⟨by rw [hco, hlen]; exact hhi, ?_⟩, ?_⟩
        · intro p e hp hle
          rw [hget p] at hp
          cases hold : l.logs[p]? with
          | none => rw [hold] at hp; simp at hp
          | some e0 =>
            rw [hold] at hp
            simp only [Option.map, Option.some.injEq] at hp
            by_cases hr : l.CommitIndex < (p : Int) ∧ (p : Int) ≤ idx
            · rw [if_pos hr] at hp
              rw [← hp]
            · rw [if_neg hr] at hp
              rw [← hp]
              exact hupto p e0 hold (by omega)
        · intro _ honly p e hp hc
          rw [hget p] at hp
          cases hold : l.logs[p]? with
          | none => rw [hold] at hp; simp at hp
          | some e0 =>
            rw [hold] at hp
            simp only [Option.map, Option.some.injEq] at hp
            by_cases hr : l.CommitIndex < (p : Int) ∧ (p : Int) ≤ idx
            · rw [hco]
              exact hr.2
            · rw [if_neg hr] at hp
              rw [← hp] at hc
              have := honly p e0 hold hc
              omega

theorem unflaggedCalls_cons (c : Call) (rest : List Call)
    (h : unflaggedCalls (c :: rest) = true) :
    unflaggedCalls [c] = true ∧ unflaggedCalls rest = true := by
  cases c with
  | Append a =>
    simp only [unflaggedCalls, Bool.and_eq_true, Bool.and_true] at h ⊢
    exact h
  | appendCmd cmd =>
    simp only [unflaggedCalls] at h ⊢
    exact ⟨trivial, h⟩
  | commit idx =>
    simp only [unflaggedCalls] at h ⊢
    exact ⟨trivial, h⟩

theorem calls_committed_below (cs : List Call) : ∀ (l l2 : Log), l.calls cs = some l2 →
    l.CommitIndex < (l.logs.length : Int) →
    (∀ (p : Nat) (e : LogEntry), l.logs[p]? = some e →
      (p : Int) ≤ l.CommitIndex → e.Committed = true) →
    (l2.CommitIndex < (l2.logs.length : Int) ∧
      ∀ (p : Nat) (e : LogEntry), l2.logs[p]? = some e →
        (p : Int) ≤ l2.CommitIndex → e.Committed = true) ∧
    (unflaggedCalls cs = true →
      (∀ (p : Nat) (e : LogEntry), l.logs[p]? = some e →
        e.Committed = true → (p : Int) ≤ l.CommitIndex) →
      ∀ (p : Nat) (e : LogEntry), l2.logs[p]? = some e →
        e.Committed = true → (p : Int) ≤ l2.CommitIndex) := by
  induction cs with
  | nil =>
    intro l l2 hrun hlt hupto
    simp only [Log.calls, Option.some.injEq] at hrun
    subst hrun
    exact ⟨⟨hlt, hupto⟩, fun _ honly => honly⟩
  | cons c rest ih =>
    intro l l2 hrun hlt hupto
    simp only [Log.calls] at hrun
    split at hrun
    · simp at hrun
    · rename_i l1 h1
      obtain ⟨⟨hlt1, hupto1⟩, honly1⟩ := call_committed_below l c l1 h1 hlt hupto
      obtain ⟨hkeep, honly2⟩ := ih l1 l2 hrun hlt1 hupto1
      refine ⟨hkeep, ?_⟩
      intro hun honly
      obtain ⟨hu1, hu2⟩ := unflaggedCalls_cons c rest hun
      exact honly2 hu2 (honly1 hu1 honly)

/-- C16 as stated fails: an accepted `Append` stores the entries with the
`Committed` flags they arrive with; after one batch whose second entry is
flagged, position 1 is flagged and position 0 is not. -/
theorem reachable_flag_gap :
    (emptyLog 0).calls
        [Call.Append (AppendArgs.mk 1 0 0 0 [entry 1 0, LogEntry.mk 1 1 true sampleCmd])] =
      some (Log.mk 1 1 (-1) [entry 1 0, LogEntry.mk 1 1 true sampleCmd]) ∧
      (Log.mk 1 1 (-1) [entry 1 0, LogEntry.mk 1 1 true sampleCmd]).logs[1]? =
        some (LogEntry.mk 1 1 true sampleCmd) ∧
      (LogEntry.mk 1 1 true sampleCmd).Committed = true ∧
      (Log.mk 1 1 (-1) [entry 1 0, LogEntry.mk 1 1 true sampleCmd]).logs[0]? =
        some (entry 1 0) ∧
      (entry 1 0).Committed = false := by
  decide

/-- C16, amended: in a log state reached from the initial state
(`CommitIndex = -1`, `CurrentIndex = -1`, nothing stored) through completed
`Append`, `appendCmd` and `commit` calls, every stored entry at a position
`≤ CommitIndex` is flagged `Committed`; and when no entry handed to `Append`
was already flagged, an entry flagged `Committed` at position `i` has every
stored entry at a position `j < i` flagged too. -/
theorem reachable_committed_below (l : Log) (cs : List Call) (l2 : Log)
    (hidx : l.CurrentIndex = -1) (hcommit : l.CommitIndex = -1) (hlogs : l.logs = [])
    (hrun : l.calls cs = some l2) :
    (∀ (p : Nat) (e : LogEntry), l2.logs[p]? = some e →
      (p : Int) ≤ l2.CommitIndex → e.Committed = true) ∧
    (unflaggedCalls cs = true →
      ∀ (i j : Nat) (ei ej : LogEntry), j < i →
        l2.logs[i]? = some ei → ei.Committed = true →
        l2.logs[j]? = some ej → ej.Committed = true) := by
  have hlt : l.CommitIndex < (l.logs.length : Int) := by simp [hlogs, hcommit]
  have hupto : ∀ (p : Nat) (e : LogEntry), l.logs[p]? = some e →
      (p : Int) ≤ l.CommitIndex → e.Committed = true := by
    intro p e hp
    simp [hlogs] at hp
  have honly : ∀ (p : Nat) (e : LogEntry), l.logs[p]? = some e →
      e.Committed = true → (p : Int) ≤ l.CommitIndex := by
    intro p e hp
    simp [hlogs] at hp
  obtain ⟨⟨_, hupto2⟩, honly2⟩ := calls_committed_below cs l l2 hrun hlt hupto
  refine ⟨hupto2, ?_⟩
  intro hun i j ei ej hji hi hci hj
  have hile := honly2 hun honly i ei hi hci
  exact hupto2 j ej hj (by omega)

/-- Instance of C16 amended: two entries received unflagged, one more appended
by the node itself, the first two committed. -/
theorem reachable_committed_below_witness :
    (∀ (p : Nat) (e : LogEntry),
      (Log.mk 1 2 1 [LogEntry.mk 1 0 true sampleCmd, LogEntry.mk 1 1 true sampleCmd,
        entry 1 2]).logs[p]? = some e →
      (p : Int) ≤ (Log.mk 1 2 1 [LogEntry.mk 1 0 true sampleCmd,
        LogEntry.mk 1 1 true sampleCmd, entry 1 2]).CommitIndex → e.Committed = true) ∧
    (∀ (i j : Nat) (ei ej : LogEntry), j < i →
      (Log.mk 1 2 1 [LogEntry.mk 1 0 true sampleCmd, LogEntry.mk 1 1 true sampleCmd,
        entry 1 2]).logs[i]? = some ei → ei.Committed = true →
      (Log.mk 1 2 1 [LogEntry.mk 1 0 true sampleCmd, LogEntry.mk 1 1 true sampleCmd,
        entry 1 2]).logs[j]? = some ej → ej.Committed = true) :=
  ⟨(reachable_committed_below (emptyLog 0)
      [Call.Append (AppendArgs.mk 1 0 0 0 [entry 1 0, entry 1 1]),
       Call.appendCmd sampleCmd, Call.commit 1]
      (Log.mk 1 2 1 [LogEntry.mk 1 0 true sampleCmd, LogEntry.mk 1 1 true sampleCmd, entry 1 2])
      rfl rfl rfl (by decide)).1,
   (reachable_committed_below (emptyLog 0)
      [Call.Append (AppendArgs.mk 1 0 0 0 [entry 1 0, entry 1 1]),
       Call.appendCmd sampleCmd, Call.commit 1]
      (Log.mk 1 2 1 [LogEntry.mk 1 0 true sampleCmd, LogEntry.mk 1 1 true sampleCmd, entry 1 2])
      rfl rfl rfl (by decide)).2 (by decide)⟩

/-! ## Consecutive appendCmd calls -/

theorem appendCmds_concat (l : Log) (cs : List Command) (c : Command) :
    appendCmds l (cs ++ [c]) = ((appendCmds l cs).appendCmd c).2 := by
  simp [appendCmds, List.foldl_append]

/-- The log after `appendCmd` was called once per command on a fresh log:
term and commit index untouched, one entry per command, the `i`-th with index
`i`, the log's term, no `Committed` flag and the `i`-th command. -/
theorem appendCmds_state (l : Log) (hidx : l.CurrentIndex = -1) (hlogs : l.logs = [])
    (cs : List Command) : cs.length ≤ 2 ^ 63 →
    (appendCmds l cs).CurrentTerm = l.CurrentTerm ∧
      (appendCmds l cs).CommitIndex = l.CommitIndex ∧
      (appendCmds l cs).CurrentIndex = (cs.length : Int) - 1 ∧
      (appendCmds l cs).logs.length = cs.length ∧
      ∀ (i : Nat) (e : LogEntry), (appendCmds l cs).logs[i]? = some e →
        ∃ c, cs[i]? = some c ∧
          e = { Term := l.CurrentTerm, Index := (i : Int), Committed := false, Cmd := c } := by
  induction cs using List.reverseRecOn with
  | nil =>
    intro _
    refine ⟨rfl, rfl, by simp [appendCmds, hidx], by simp [appendCmds, hlogs], ?_⟩
    intro i e he
    simp [appendCmds, hlogs] at he
  | append_singleton cs c ih =>
    intro hfit
    simp only [List.length_append, List.length_singleton] at hfit
    obtain ⟨ht, hc, hi, hlen, hget⟩ := ih (by omega)
    have hw : wrapInt ((appendCmds l cs).CurrentIndex + 1) = (cs.length : Int) := by
      rw [hi, sub_add_cancel]
      exact wrapInt_of_nat _ (by omega)
    rw [appendCmds_concat]
    simp only [Log.appendCmd, hw, ht, hc, List.length_append, List.length_singleton, hlen]
    refine ⟨trivial, trivial, by push_cast; omega, trivial, ?_⟩
    intro i e he
    by_cases hin : i < cs.length
    · rw [List.getElem?_append_left (by omega)] at he
      obtain ⟨c0, hc0, he0⟩ := hget i e he
      exact ⟨c0, by rw [List.getElem?_append_left hin]; exact hc0, he0⟩
    · have hge : (appendCmds l cs).logs.length ≤ i := by omega
      rw [List.getElem?_append_right hge] at he
      have hi0 : i - (appendCmds l cs).logs.length = 0 := by
        by_contra hne
        have hpos : 0 < i - (appendCmds l cs).logs.length := Nat.pos_of_ne_zero hne
        rw [List.getElem?_eq_none (by simp only [List.length_singleton]; omega)] at he
        simp at he
      have hieq : i = cs.length := by omega
      rw [hi0] at he
      simp only [List.getElem?_cons_zero, Option.some.injEq] at he
      refine ⟨c, ?_, ?_⟩
      · rw [hieq]
        exact List.getElem?_concat_length _ _
      · rw [← he, hieq]

/-- C15: on a fresh log (`CurrentIndex = -1`, `CommitIndex = -1`, nothing
stored), after one `appendCmd` call per command the log holds as many entries
as commands, the entry at position `i` has index `i`, and `CurrentIndex` is
the number of entries minus one; the call made for the `k`-th command returns
and stores last an entry with the previous `CurrentIndex` plus one as index,
the log's `CurrentTerm` as term, no `Committed` flag and that command, and
leaves `CurrentTerm`, `CommitIndex` and the earlier entries as they were.  The
number of commands is at most `2 ^ 63`, more than a Go slice holds. -/
theorem appendCmds_fresh (l : Log) (cmds : List Command)
    (hidx : l.CurrentIndex = -1) (hcommit : l.CommitIndex = -1) (hlogs : l.logs = [])
    (hfit : cmds.length ≤ 2 ^ 63) :
    ((appendCmds l cmds).logs.length = cmds.length ∧
      (∀ (i : Nat) (e : LogEntry), (appendCmds l cmds).logs[i]? = some e →
        e.Index = (i : Int)) ∧
      (appendCmds l cmds).CurrentIndex = (cmds.length : Int) - 1) ∧
    ∀ (k : Nat) (c : Command), cmds[k]? = some c →
      ((appendCmds l (cmds.take k)).appendCmd c).1 =
          { Term := (appendCmds l (cmds.take k)).CurrentTerm,
            Index := (appendCmds l (cmds.take k)).CurrentIndex + 1,
            Committed := false, Cmd := c } ∧
        ((appendCmds l (cmds.take k)).appendCmd c).2 =
          { CurrentTerm := (appendCmds l (cmds.take k)).CurrentTerm,
            CurrentIndex := (appendCmds l (cmds.take k)).CurrentIndex + 1,
            CommitIndex := (appendCmds l (cmds.take k)).CommitIndex,
            logs := (appendCmds l (cmds.take k)).logs ++
              [((appendCmds l (cmds.take k)).appendCmd c).1] } ∧
        appendCmds l (cmds.take (k + 1)) = ((appendCmds l (cmds.take k)).appendCmd c).2 := by
  obtain ⟨_, _, hcur, hlen, hget⟩ := appendCmds_state l hidx hlogs cmds hfit
  refine ⟨⟨hlen, ?_, hcur⟩, ?_⟩
  · intro i e he
    obtain ⟨c, _, rfl⟩ := hget i e he
    rfl
  · intro k c hk
    have hklt : k < cmds.length := (List.getElem?_eq_some_iff.mp hk).1
    have htake : (cmds.take k).length = k := by
      rw [List.length_take]
      omega
    obtain ⟨_, _, hcurk, _, _⟩ :=
      appendCmds_state l hidx hlogs (cmds.take k) (by rw [htake]; omega)
    rw [htake] at hcurk
    have hw : wrapInt ((appendCmds l (cmds.take k)).CurrentIndex + 1) =
        (appendCmds l (cmds.take k)).CurrentIndex + 1 := by
      rw [hcurk, sub_add_cancel]
      exact wrapInt_of_nat _ (by omega)
    refine ⟨?_, ?_, ?_⟩
    · simp only [Log.appendCmd, hw]
    · simp only [Log.appendCmd, hw]
    · have hstep : cmds.take (k + 1) = cmds.take k ++ [c] := by
        rw [List.take_succ, hk]
        rfl
      rw [hstep, appendCmds_concat]

/-- Instance of C15: a `set` and a `delete` command on a fresh log of term 3. -/
theorem appendCmds_fresh_witness :
    (appendCmds (emptyLog 3) [sampleCmd, Command.mk "delete" "k" []]).logs.length = 2 ∧
      (∀ (i : Nat) (e : LogEntry),
        (appendCmds (emptyLog 3) [sampleCmd, Command.mk "delete" "k" []]).logs[i]? = some e →
          e.Index = (i : Int)) ∧
      (appendCmds (emptyLog 3) [sampleCmd, Command.mk "delete" "k" []]).CurrentIndex =
        ((2 : Nat) : Int) - 1 :=
  (appendCmds_fresh (emptyLog 3) [sampleCmd, Command.mk "delete" "k" []]
    rfl rfl rfl (by decide)).1

/-! ## New -/

theorem mapGet_mapSet (m : List (String × LogEntry)) (k key : String) (v : LogEntry) :
    mapGet (mapSet m k v) key = if key = k then some v else mapGet m key := by
  induction m with
  | nil => simp [mapSet, mapGet]
  | cons kv m ih =>
    obtain ⟨k0, v0⟩ := kv
    by_cases hk : k = k0
    · subst hk
      by_cases hkey : key = k <;> simp [mapSet, mapGet, hkey]
    · by_cases hkey : key = k
      · subst hkey
        simp [mapSet, mapGet, hk, ih]
      · have hk0 : ¬ k0 = k := fun h => hk h.symm
        by_cases hkey0 : key = k0 <;> simp [mapSet, mapGet, hk, hk0, hkey, hkey0, ih]

theorem mapGet_foldl_mapSet (peers : List String) (v : LogEntry) :
    ∀ (m : List (String × LogEntry)) (key : String),
      mapGet (peers.foldl (fun m val => mapSet m val v) m) key =
        if key ∈ peers then some v else mapGet m key := by
  induction peers with
  | nil => intro m key; simp
  | cons p ps ih =>
    intro m key
    rw [List.foldl_cons, ih, mapGet_mapSet]
    by_cases h1 : key ∈ ps
    · simp [h1]
    · by_cases h2 : key = p <;> simp [h1, h2]

/-- C19: `New` gives a node in state `Follower`, whose log has
`CurrentTerm = 0`, `CurrentIndex = -1`, `CommitIndex = -1` and no stored
entry, and whose peer tracker has exactly the configured peers as keys, each
mapped to the entry with index -1 and term 0. -/
theorem New_initial (cfg : Config) :
    (New cfg).state = State.Follower ∧
      (New cfg).log = { CurrentTerm := 0, CurrentIndex := -1, CommitIndex := -1, logs := [] } ∧
      (∀ key : String, mapGet (New cfg).peerLogs key =
        if key ∈ cfg.Peers then some initialPeerEntry else none) ∧
      initialPeerEntry.Index = -1 ∧ initialPeerEntry.Term = 0 := by
  refine ⟨rfl, rfl, ?_, rfl, rfl⟩
  intro key
  simp only [New, mapGet_foldl_mapSet, mapGet]
end raft
